import Mathlib

/-!
Verification of the `coreinject` program (src/coreinject/main.c): a shallow
embedding of its ident resolution and injection engine, together with
theorems settling the specification claims.

Modelling conventions:
* Files are byte lists (`List Nat`); a file system is `String → Option (List Nat)`
  (`none` models a failing `fopen`).
* The symbol map is modelled at the level of its well-formed lines
  (`SymLine`); lines that do not parse are skipped by the C scanner and never
  reach the logic embedded here.
* OS-level failures that are not determined by file contents (seek errors,
  `malloc` failure, write errors) are modelled by an oracle `IOEnv`.
* C `int` error codes are kept as `Int` (`0` / `-1`), combined with `Int.lor`
  exactly as the C `|=` does; the process-level flag is a `Nat` combined with
  `Nat.lor`.
* Side effects that matter to the claims (transfer attempts, open failures,
  the downstream `add_dump_list` notification) are recorded in an event trace.
-/

/-- One well-formed symbol-map line:
`<core-offset> <mem-address> <size> <kind-char> <ident>`. -/
structure SymLine where
  offset : Nat
  mem : Nat
  size : Nat
  type : Char
  ident : String
deriving DecidableEq, Repr

/-- C `struct ident_data`. -/
structure IdentData where
  filename : String
  ident : String
  dump_offset : Nat
  core_offset : Nat
  mem_offset : Nat
  size : Nat
deriving DecidableEq, Repr

/-- C `struct prog_option` (one `--data=` override), minus the intrusive
`next` pointer: the option list is a Lean list. -/
structure ProgOption where
  processed : Bool
  size : Nat
  offset : Nat
  ident : String
  filename : String
deriving DecidableEq, Repr

/-- C `struct core_data` as used by `coreinject` (an injected-region record). -/
structure CoreData where
  mem_start : Nat
  start : Nat
  stop : Nat
deriving DecidableEq, Repr

/-- Oracle for OS outcomes that are not determined by file contents. -/
structure IOEnv where
  seekCoreOk : Bool
  seekDumpOk : Bool
  allocOk : Bool
  writeOk : Bool
deriving DecidableEq, Repr

/-- The all-success oracle. -/
def okEnv : IOEnv := ⟨true, true, true, true⟩

/-- The five I/O steps of `write_core`, in source order. -/
inductive WStep where
  | seekCore
  | seekDump
  | alloc
  | read
  | write
deriving DecidableEq, Repr

/-- Observable events of a run. -/
inductive Event where
  | inj (fname : String)
  | openFail (fname : String)
  | wc (ident : String) (direct : Bool) (err : Int)
  | notify (regions : List CoreData) (size : Nat)
deriving DecidableEq, Repr

/-- Is this event the downstream notification (`add_dump_list`)? -/
def isNotify : Event → Bool
  | .notify _ _ => true
  | _ => false

/-- Is this event a transfer attempt (a `write_core` invocation)? -/
def isWc : Event → Bool
  | .wc _ _ _ => true
  | _ => false

/-- Is this event an indirect transfer attempt? -/
def isWcInd : Event → Bool
  | .wc _ false _ => true
  | _ => false

/-- Is this event an `inject_data` invocation? -/
def isInj : Event → Bool
  | .inj _ => true
  | _ => false

/-- The dump-path argument of an `inject_data` invocation event. -/
def injName : Event → Option String
  | .inj f => some f
  | _ => none

/-- Is this event a reported per-ident failure (failed open or failed
transfer)? -/
def isFailEv : Event → Bool
  | .openFail _ => true
  | .wc _ _ e => decide (e ≠ 0)
  | _ => false

/-- Overwrite `buf.length` bytes of `content` at byte position `pos`,
zero-filling any gap when `pos` lies past the end (POSIX seek-past-EOF
followed by a write). -/
def writeAt (content : List Nat) (pos : Nat) (buf : List Nat) : List Nat :=
  let padded := content ++ List.replicate (pos - content.length) 0
  padded.take pos ++ buf ++ padded.drop (pos + buf.length)

/-- C `add_dump_item`: push a fresh `core_data` record onto the front of the
process-wide `dump_list` (the C code links the new node before the old head). -/
def add_dump_item (dump_list : List CoreData) (mem_offset size : Nat) : List CoreData :=
  { mem_start := mem_offset, start := 0, stop := size } :: dump_list

/-- Result of one `write_core` call. -/
structure WCOut where
  err : Int
  core : List Nat
  dump_list : List CoreData
  steps : List WStep
  suggested : Option (String × Nat)
  printed : Option (String × Nat × Bool)
deriving Repr

/-- C `write_core`: seek core, seek dump, allocate, read from dump, write to
core; stop at the first failing step. A read succeeds exactly when `fread`
returns one full item: `size` is nonzero and `size` bytes exist at
`dump_offset`. On a read failure with `direct` set, the error text suggests a
`--data=<ident>:<size>@...` directive (recorded in `suggested`). On success
the injected region is pushed onto `dump_list` and the
`injected: <ident>, <n> bytes, ...` report is recorded in `printed`. -/
def write_core (env : IOEnv) (core : List Nat) (dump : List Nat)
    (d : IdentData) (direct : Bool) (dump_list : List CoreData) : WCOut :=
  if env.seekCoreOk = false then
    ⟨-1, core, dump_list, [.seekCore], none, none⟩
  else if env.seekDumpOk = false then
    ⟨-1, core, dump_list, [.seekCore, .seekDump], none, none⟩
  else if env.allocOk = false then
    ⟨-1, core, dump_list, [.seekCore, .seekDump, .alloc], none, none⟩
  else if ¬ (0 < d.size ∧ d.dump_offset + d.size ≤ dump.length) then
    ⟨-1, core, dump_list, [.seekCore, .seekDump, .alloc, .read],
      if direct then some (d.ident, d.size) else none, none⟩
  else if env.writeOk = false then
    ⟨-1, core, dump_list, [.seekCore, .seekDump, .alloc, .read, .write], none, none⟩
  else
    ⟨0, writeAt core d.core_offset ((dump.drop d.dump_offset).take d.size),
      add_dump_item dump_list d.mem_offset d.size,
      [.seekCore, .seekDump, .alloc, .read, .write], none,
      some (d.ident, d.size, direct)⟩

/-- The zero-initialized `struct ident_data` (`memset(d, 0, sizeof(*d))`;
NULL strings are modelled as `""`). -/
def initIdent : IdentData :=
  { filename := "", ident := "", dump_offset := 0, core_offset := 0
    mem_offset := 0, size := 0 }

/-- The scanning loop of `get_ident_data`: walk every map line; for a line
whose ident matches, kind `D`/`N` overwrites the direct record and kind `I`
overwrites the indirect record (any other kind is skipped), so the last line
of a kind wins. -/
def symmap_scan (ident : String) (direct indirect : IdentData) :
    List SymLine → IdentData × IdentData
  | [] => (direct, indirect)
  | l :: rest =>
    if l.ident ≠ ident then
      symmap_scan ident direct indirect rest
    else if l.type = 'D' ∨ l.type = 'N' then
      symmap_scan ident
        { direct with core_offset := l.offset, mem_offset := l.mem, size := l.size, ident := ident }
        indirect rest
    else if l.type = 'I' then
      symmap_scan ident direct
        { indirect with core_offset := l.offset, mem_offset := l.mem, size := l.size, ident := ident }
        rest
    else
      symmap_scan ident direct indirect rest

/-- C `get_ident_data`: zero both records, scan the whole map, then, when both
sizes are nonzero, add the indirect size to the direct dump offset (indirect
data precedes direct data in the same dump file). The C function always
returns 0; the returned `Int` keeps that return value. -/
def get_ident_data (ident : String) (symmap : List SymLine) :
    Int × IdentData × IdentData :=
  let s := symmap_scan ident initIdent initIdent symmap
  let indirect := s.2
  let direct :=
    if indirect.size ≠ 0 ∧ s.1.size ≠ 0 then
      { s.1 with dump_offset := s.1.dump_offset + indirect.size }
    else s.1
  (0, direct, indirect)

/-- C `check_user_data`: walk the option list in order; every option that is
not yet processed and whose ident equals `d.ident` overwrites `d`'s size,
dump offset and filename and is marked processed (the loop has no break). -/
def check_user_data (d : IdentData) : List ProgOption → IdentData × List ProgOption
  | [] => (d, [])
  | o :: rest =>
    if o.processed then
      let r := check_user_data d rest
      (r.1, o :: r.2)
    else if o.ident = d.ident then
      let r := check_user_data
        { d with size := o.size, dump_offset := o.offset, filename := o.filename } rest
      (r.1, { o with processed := true } :: r.2)
    else
      let r := check_user_data d rest
      (r.1, o :: r.2)

/-- C `strrchr(s, '/')`: the characters after the last slash, or `none` when
no slash occurs. -/
def after_last_slash : List Char → Option (List Char)
  | [] => none
  | c :: rest =>
    match after_last_slash rest with
    | some s => some s
    | none => if c = '/' then some rest else none

/-- Ident extraction in `inject_data`: the final path component of the dump
path (everything after the last `/`), or the whole path when it has no `/`. -/
def path_ident (s : String) : String :=
  match after_last_slash s.data with
  | some cs => ⟨cs⟩
  | none => s

/-- Result of one `inject_data` call. -/
structure InjOut where
  err : Int
  options : List ProgOption
  core : List Nat
  dump_list : List CoreData
  events : List Event
deriving Repr

/-- C `inject_data`: derive the ident from the dump path, resolve it in the
map, then transfer the direct placement (source defaulting to the dump path,
overridable via `check_user_data`; a failed open returns `-1` at once) and
then the indirect placement (source always the dump path; a failed open also
returns `-1`), OR-ing the two `write_core` results. The ident-not-found
branch follows the C code: it fires only when `get_ident_data` returns
nonzero, which never happens. -/
def inject_data (env : IOEnv) (fs : String → Option (List Nat))
    (symmap : List SymLine) (b_fname : String) (options : List ProgOption)
    (core : List Nat) (dump_list : List CoreData) : InjOut :=
  let ident := path_ident b_fname
  let g := get_ident_data ident symmap
  if g.1 ≠ 0 then
    ⟨-1, options, core, dump_list, [.inj b_fname]⟩
  else
    let direct := g.2.1
    let indirect := g.2.2
    let doIndirect : Int → List ProgOption → List Nat → List CoreData →
        List Event → InjOut := fun err opts core1 dl evs =>
      if 0 < indirect.size then
        let ind := { indirect with filename := b_fname }
        match fs ind.filename with
        | none => ⟨-1, opts, core1, dl, evs ++ [.openFail ind.filename]⟩
        | some dc =>
          let w := write_core env core1 dc ind false dl
          ⟨Int.lor err w.err, opts, w.core, w.dump_list,
            evs ++ [.wc ind.ident false w.err]⟩
      else
        ⟨err, opts, core1, dl, evs⟩
    if 0 < direct.size then
      let direct1 := { direct with filename := b_fname }
      let r := check_user_data direct1 options
      let direct2 := r.1
      let options1 := r.2
      match fs direct2.filename with
      | none => ⟨-1, options1, core, dump_list, [.inj b_fname, .openFail direct2.filename]⟩
      | some dc =>
        let w := write_core env core dc direct2 true dump_list
        doIndirect (Int.lor 0 w.err) options1 w.core w.dump_list
          [.inj b_fname, .wc direct2.ident true w.err]
    else
      doIndirect 0 options core dump_list [.inj b_fname]

/-- The run state of `main` after the core file and symbol map are open. -/
structure MState where
  err : Nat
  options : List ProgOption
  core : List Nat
  dump_list : List CoreData
  events : List Event
deriving Repr

/-- One iteration of `main`'s injection loops:
`if (inject_data(...) != 0) err |= 1;`. -/
def injectStep (env : IOEnv) (fs : String → Option (List Nat))
    (symmap : List SymLine) (st : MState) (fname : String) : MState :=
  let r := inject_data env fs symmap fname st.options st.core st.dump_list
  { err := if r.err ≠ 0 then st.err ||| 1 else st.err
    options := r.options
    core := r.core
    dump_list := r.dump_list
    events := st.events ++ r.events }

/-- `main`'s first loop: inject every remaining positional argument (the loop
in the C source starts at the symbol-map argument itself, so `args` begins
with the symbol-map path). -/
def positional_pass (env : IOEnv) (fs : String → Option (List Nat))
    (symmap : List SymLine) (args : List String) (options : List ProgOption)
    (core : List Nat) : MState :=
  List.foldl (injectStep env fs symmap)
    { err := 0, options := options, core := core, dump_list := [], events := [] } args

/-- `main`'s second loop (`for (o = options; o; o = o->next)`): walk the
option list by position; an option still unprocessed when reached triggers
one more `inject_data` call with its own ident string as the dump path. -/
def leftoverGo (env : IOEnv) (fs : String → Option (List Nat))
    (symmap : List SymLine) : Nat → Nat → MState → MState
  | 0, _, st => st
  | n + 1, k, st =>
    let st1 :=
      match st.options[k]? with
      | none => st
      | some o => if o.processed then st else injectStep env fs symmap st o.ident
    leftoverGo env fs symmap n (k + 1) st1

/-- Both injection loops of `main`. -/
def mainBody (env : IOEnv) (fs : String → Option (List Nat))
    (symmap : List SymLine) (args : List String) (options : List ProgOption)
    (core : List Nat) : MState :=
  let st := positional_pass env fs symmap args options core
  leftoverGo env fs symmap st.options.length 0 st

/-- `main` after option parsing and file opening: run both loops, then, only
when the accumulated flag is zero, hand the region list and the core file
size to `add_dump_list` (the downstream notification), recorded as a
`notify` event. -/
def mainRun (env : IOEnv) (fs : String → Option (List Nat))
    (symmap : List SymLine) (args : List String) (options : List ProgOption)
    (core : List Nat) : MState :=
  let st := mainBody env fs symmap args options core
  if st.err = 0 then
    { st with events := st.events ++ [.notify st.dump_list st.core.length] }
  else st

/-! ## Helper lemmas -/

theorem ilor_zero_left (x : Int) : Int.lor 0 x = x := by
  cases x with
  | ofNat n =>
    show Int.ofNat (Nat.lor 0 n) = Int.ofNat n
    simp [Nat.lor]
  | negSucc n =>
    show Int.negSucc (Nat.ldiff n 0) = Int.negSucc n
    simp [Nat.ldiff, Nat.bitwise_zero_right]

theorem ilor_neg_one_zero : Int.lor (-1) 0 = -1 := by
  show Int.lor (Int.negSucc 0) (Int.ofNat 0) = Int.negSucc 0
  unfold Int.lor
  simp [Nat.ldiff, Nat.bitwise_zero]

theorem ilor_neg_one_neg_one : Int.lor (-1) (-1) = -1 := by
  show Int.lor (Int.negSucc 0) (Int.negSucc 0) = Int.negSucc 0
  unfold Int.lor
  simp

theorem ilor_neg_one_left (x : Int) (h : x = 0 ∨ x = -1) : Int.lor (-1) x = -1 := by
  rcases h with rfl | rfl
  · exact ilor_neg_one_zero
  · exact ilor_neg_one_neg_one

/-- `write_core` returns either 0 or -1, like the C function. -/
theorem write_core_err_cases (env : IOEnv) (core dump : List Nat) (d : IdentData)
    (direct : Bool) (dl : List CoreData) :
    (write_core env core dump d direct dl).err = 0 ∨
      (write_core env core dump d direct dl).err = -1 := by
  unfold write_core
  split
  · right; rfl
  split
  · right; rfl
  split
  · right; rfl
  split
  · right; rfl
  split
  · right; rfl
  · left; rfl

/-- The padded intermediate list of `writeAt` is at least `pos` long. -/
theorem writeAt_pad_length (content : List Nat) (pos : Nat) :
    pos ≤ (content ++ List.replicate (pos - content.length) 0).length := by
  simp [List.length_append, List.length_replicate]
  omega

theorem writeAt_length (content : List Nat) (pos : Nat) (buf : List Nat) :
    (writeAt content pos buf).length = max content.length (pos + buf.length) := by
  unfold writeAt
  simp [List.length_append, List.length_take, List.length_drop, List.length_replicate]
  omega

/-- Dropping a prefix and taking the middle block of a three-part append. -/
theorem drop_take_middle (A buf C : List Nat) :
    ((A ++ (buf ++ C)).drop A.length).take buf.length = buf := by
  rw [List.drop_left, List.take_left]

/-- Reading back the written range of `writeAt` returns the buffer. -/
theorem writeAt_readback (content : List Nat) (pos : Nat) (buf : List Nat) :
    ((writeAt content pos buf).drop pos).take buf.length = buf := by
  have hp := writeAt_pad_length content pos
  have hlen : ((content ++ List.replicate (pos - content.length) 0).take pos).length = pos := by
    simp [List.length_take]
    omega
  have h2 := drop_take_middle
    ((content ++ List.replicate (pos - content.length) 0).take pos) buf
    ((content ++ List.replicate (pos - content.length) 0).drop (pos + buf.length))
  rw [hlen] at h2
  simp only [writeAt]
  rw [List.append_assoc]
  exact h2

/-- Outside the written range, `writeAt` agrees with the padded original. -/
theorem writeAt_getElem?_outside (content : List Nat) (pos : Nat) (buf : List Nat)
    (i : Nat) (h : i < pos ∨ pos + buf.length ≤ i) :
    (writeAt content pos buf)[i]? =
      (content ++ List.replicate (pos - content.length) 0)[i]? := by
  have hp := writeAt_pad_length content pos
  have hlen : ((content ++ List.replicate (pos - content.length) 0).take pos).length = pos := by
    simp [List.length_take]; omega
  simp only [writeAt]
  rcases h with h | h
  · rw [List.append_assoc, List.getElem?_append, hlen, if_pos (by omega), List.getElem?_take,
      if_pos h]
  · rw [List.append_assoc, List.getElem?_append, hlen, if_neg (by omega), List.getElem?_append,
      if_neg (by omega), List.getElem?_drop]
    have harith : pos + buf.length + (i - pos - buf.length) = i := by omega
    rw [harith]

/-- Frame property of `writeAt` on indices inside the original content. -/
theorem writeAt_frame (content : List Nat) (pos : Nat) (buf : List Nat)
    (i : Nat) (hi : i < content.length) (h : i < pos ∨ pos + buf.length ≤ i) :
    (writeAt content pos buf).getD i 0 = content.getD i 0 := by
  rw [List.getD_eq_getElem?_getD, List.getD_eq_getElem?_getD,
    writeAt_getElem?_outside content pos buf i h, List.getElem?_append, if_pos hi]

/-! ## Transfer engine claims (C7, C8, C3) -/

/-- Success condition of each `write_core` step, as determined by the oracle
and, for the read step, by the dump contents. -/
def stepOk (env : IOEnv) (d : IdentData) (dump : List Nat) : WStep → Bool
  | .seekCore => env.seekCoreOk
  | .seekDump => env.seekDumpOk
  | .alloc => env.allocOk
  | .read => decide (0 < d.size ∧ d.dump_offset + d.size ≤ dump.length)
  | .write => env.writeOk

/-- The documented order of the five `write_core` steps. -/
def wstepOrder : List WStep := [.seekCore, .seekDump, .alloc, .read, .write]

/-- Claim C7: the transfer performs seek-core, seek-dump, allocate, read,
write in exactly this order, attempting each step only after all earlier
steps succeeded and stopping at the first failure; it reports success exactly
when all five steps succeed; and the `--data=<ident>:<size>@...` suggestion
is printed exactly on a read failure of a direct placement. -/
theorem c7_transfer_step_order (env : IOEnv) (core dump : List Nat)
    (d : IdentData) (direct : Bool) (dl : List CoreData) :
    (write_core env core dump d direct dl).steps =
      wstepOrder.takeWhile (stepOk env d dump) ++
        (wstepOrder.dropWhile (stepOk env d dump)).take 1 ∧
    ((write_core env core dump d direct dl).err = 0 ↔
      wstepOrder.all (stepOk env d dump) = true) ∧
    ((write_core env core dump d direct dl).printed.isSome ↔
      (write_core env core dump d direct dl).err = 0) ∧
    ((write_core env core dump d direct dl).suggested =
      if direct && env.seekCoreOk && env.seekDumpOk && env.allocOk &&
          !(decide (0 < d.size ∧ d.dump_offset + d.size ≤ dump.length)) then
        some (d.ident, d.size)
      else none) := by
  obtain ⟨sc, sd, al, wr⟩ := env
  by_cases h : 0 < d.size ∧ d.dump_offset + d.size ≤ dump.length <;>
    cases sc <;> cases sd <;> cases al <;> cases wr <;> cases direct <;>
    simp [write_core, stepOk, wstepOrder, h]

/-- Claim C8: a fully successful transfer writes exactly the `size` source
bytes at the core offset; reading the core back there returns those bytes,
every byte of the original core outside the range is unchanged, and the core
only grows as far as the written range requires. -/
theorem c8_roundtrip (env : IOEnv) (core dump : List Nat) (d : IdentData)
    (direct : Bool) (dl : List CoreData)
    (hsc : env.seekCoreOk = true) (hsd : env.seekDumpOk = true)
    (hal : env.allocOk = true) (hwr : env.writeOk = true)
    (hsz : 0 < d.size) (hrd : d.dump_offset + d.size ≤ dump.length) :
    (write_core env core dump d direct dl).err = 0 ∧
    ((write_core env core dump d direct dl).core.drop d.core_offset).take d.size =
      (dump.drop d.dump_offset).take d.size ∧
    (∀ i : Nat, i < core.length →
      i < d.core_offset ∨ d.core_offset + d.size ≤ i →
      (write_core env core dump d direct dl).core.getD i 0 = core.getD i 0) ∧
    (write_core env core dump d direct dl).core.length =
      max core.length (d.core_offset + d.size) := by
  have hbuf : ((dump.drop d.dump_offset).take d.size).length = d.size := by
    simp [List.length_take, List.length_drop]
    omega
  have hwc : write_core env core dump d direct dl =
      ⟨0, writeAt core d.core_offset ((dump.drop d.dump_offset).take d.size),
        add_dump_item dl d.mem_offset d.size,
        [.seekCore, .seekDump, .alloc, .read, .write], none,
        some (d.ident, d.size, direct)⟩ := by
    unfold write_core
    rw [if_neg (by simp [hsc]), if_neg (by simp [hsd]), if_neg (by simp [hal]),
      if_neg (by simp; exact ⟨hsz, hrd⟩), if_neg (by simp [hwr])]
  refine ⟨by rw [hwc], ?_, ?_, ?_⟩
  · rw [hwc]
    have := writeAt_readback core d.core_offset ((dump.drop d.dump_offset).take d.size)
    rw [hbuf] at this
    exact this
  · intro i hi hout
    rw [hwc]
    exact writeAt_frame core d.core_offset _ i hi (by rw [hbuf]; exact hout)
  · rw [hwc]
    show (writeAt core d.core_offset ((dump.drop d.dump_offset).take d.size)).length = _
    rw [writeAt_length, hbuf]

/-- Witness for C8: injecting bytes `[2, 3]` at offset 1 of core
`[9, 9, 9, 9]` yields err 0, reads back `[2, 3]`, and leaves bytes 0 and 3
unchanged. -/
theorem c8_roundtrip_witness :
    (write_core okEnv [9, 9, 9, 9] [1, 2, 3]
      ⟨"f", "x", 1, 1, 0, 2⟩ true []).err = 0 ∧
    ((write_core okEnv [9, 9, 9, 9] [1, 2, 3]
      ⟨"f", "x", 1, 1, 0, 2⟩ true []).core.drop 1).take 2 =
      (([1, 2, 3] : List Nat).drop 1).take 2 ∧
    (write_core okEnv [9, 9, 9, 9] [1, 2, 3]
      ⟨"f", "x", 1, 1, 0, 2⟩ true []).core.getD 0 0 =
      ([9, 9, 9, 9] : List Nat).getD 0 0 ∧
    (write_core okEnv [9, 9, 9, 9] [1, 2, 3]
      ⟨"f", "x", 1, 1, 0, 2⟩ true []).core.getD 3 0 =
      ([9, 9, 9, 9] : List Nat).getD 3 0 := by
  have h := c8_roundtrip okEnv [9, 9, 9, 9] [1, 2, 3] ⟨"f", "x", 1, 1, 0, 2⟩
    true [] rfl rfl rfl rfl (by decide) (by decide)
  exact ⟨h.1, h.2.1, h.2.2.1 0 (by decide) (Or.inl (by decide)),
    h.2.2.1 3 (by decide) (Or.inr (by decide))⟩

/-- Counterexample to claim C3 as stated: two successful transfers (regions
with `mem_start` 100 then 200) leave the ledger as `[200-region, 100-region]`
— the most recent transfer first, not append order of completion. -/
theorem c3_ledger_order_counterexample :
    (write_core okEnv [] [5] ⟨"f", "a", 0, 0, 100, 1⟩ true []).err = 0 ∧
    (write_core okEnv
      (write_core okEnv [] [5] ⟨"f", "a", 0, 0, 100, 1⟩ true []).core
      [6] ⟨"f", "a", 0, 0, 200, 1⟩ true
      (write_core okEnv [] [5] ⟨"f", "a", 0, 0, 100, 1⟩ true []).dump_list).err = 0 ∧
    (write_core okEnv
      (write_core okEnv [] [5] ⟨"f", "a", 0, 0, 100, 1⟩ true []).core
      [6] ⟨"f", "a", 0, 0, 200, 1⟩ true
      (write_core okEnv [] [5] ⟨"f", "a", 0, 0, 100, 1⟩ true []).dump_list).dump_list =
      [⟨200, 0, 1⟩, ⟨100, 0, 1⟩] := by
  decide

/-- Claim C3, amended: each successful transfer produces exactly one region
record `{mem_start := mem_offset, start := 0, stop := size}` and *prepends*
it to the ledger (a failed transfer leaves the ledger untouched), so the
ledger lists the injected regions in reverse order of transfer completion. -/
theorem c3_ledger_prepend (env : IOEnv) (core dump : List Nat) (d : IdentData)
    (direct : Bool) (dl : List CoreData) :
    (write_core env core dump d direct dl).dump_list =
      (if (write_core env core dump d direct dl).err = 0 then
        add_dump_item dl d.mem_offset d.size
      else dl) ∧
    add_dump_item dl d.mem_offset d.size =
      { mem_start := d.mem_offset, start := 0, stop := d.size } :: dl := by
  obtain ⟨sc, sd, al, wr⟩ := env
  by_cases h : 0 < d.size ∧ d.dump_offset + d.size ≤ dump.length <;>
    cases sc <;> cases sd <;> cases al <;> cases wr <;>
    simp [write_core, add_dump_item, h]

/-! ## Ident resolver claims (C4, C5) -/

theorem getLast?_cons_of_isSome {α : Type} (a b : α) (l : List α)
    (h : l.getLast? = some b) : (a :: l).getLast? = some b := by
  cases l with
  | nil => simp at h
  | cons c t => rw [List.getLast?_cons_cons]; exact h

theorem getLast?_cons_of_none {α : Type} (a : α) (l : List α)
    (h : l.getLast? = none) : (a :: l).getLast? = some a := by
  cases l with
  | nil => rfl
  | cons c t =>
    have hs := List.getLast?_isSome (l := c :: t)
    rw [h] at hs
    simp at hs

/-- Unfolding equation for one step of the scanning loop. -/
theorem symmap_scan_cons (ident : String) (dA iA : IdentData) (l : SymLine)
    (rest : List SymLine) :
    symmap_scan ident dA iA (l :: rest) =
      if l.ident ≠ ident then
        symmap_scan ident dA iA rest
      else if l.type = 'D' ∨ l.type = 'N' then
        symmap_scan ident
          { dA with core_offset := l.offset, mem_offset := l.mem, size := l.size, ident := ident }
          iA rest
      else if l.type = 'I' then
        symmap_scan ident dA
          { iA with core_offset := l.offset, mem_offset := l.mem, size := l.size, ident := ident }
          rest
      else
        symmap_scan ident dA iA rest := by
  rfl

/-- Characterization of the `get_ident_data` scanning loop: each record ends
up as the accumulator overwritten by the last map line of the matching ident
and kind, or the untouched accumulator when no line matches. -/
theorem symmap_scan_char (ident : String) (dA iA : IdentData) (m : List SymLine) :
    (symmap_scan ident dA iA m).1 =
      (match (m.filter fun l => l.ident = ident ∧ (l.type = 'D' ∨ l.type = 'N')).getLast? with
       | none => dA
       | some l =>
          { dA with core_offset := l.offset, mem_offset := l.mem, size := l.size, ident := ident }) ∧
    (symmap_scan ident dA iA m).2 =
      (match (m.filter fun l => l.ident = ident ∧ l.type = 'I').getLast? with
       | none => iA
       | some l =>
          { iA with core_offset := l.offset, mem_offset := l.mem, size := l.size, ident := ident }) := by
  induction m generalizing dA iA with
  | nil => exact ⟨rfl, rfl⟩
  | cons l rest ih =>
    by_cases h1 : l.ident = ident
    · by_cases h2 : l.type = 'D' ∨ l.type = 'N'
      · have hI : ¬ (l.type = 'I') := by rcases h2 with h2 | h2 <;> simp [h2]
        have hscan : symmap_scan ident dA iA (l :: rest) =
            symmap_scan ident
              { dA with core_offset := l.offset, mem_offset := l.mem, size := l.size, ident := ident }
              iA rest := by
          rw [symmap_scan_cons, if_neg (by simp [h1]), if_pos h2]
        have hfd : (List.filter (fun l => l.ident = ident ∧ (l.type = 'D' ∨ l.type = 'N')) (l :: rest)) =
            l :: (List.filter (fun l => l.ident = ident ∧ (l.type = 'D' ∨ l.type = 'N')) rest) := by
          simp [List.filter_cons, h1, h2]
        have hfi : (List.filter (fun l => l.ident = ident ∧ l.type = 'I') (l :: rest)) =
            List.filter (fun l => l.ident = ident ∧ l.type = 'I') rest := by
          simp [List.filter_cons, hI]
        rw [hscan, hfd, hfi]
        obtain ⟨ihd, ihi⟩ := ih
          { dA with core_offset := l.offset, mem_offset := l.mem, size := l.size, ident := ident } iA
        refine ⟨?_, ihi⟩
        rw [ihd]
        cases hfr : (List.filter (fun l => l.ident = ident ∧ (l.type = 'D' ∨ l.type = 'N')) rest).getLast? with
        | none => rw [getLast?_cons_of_none _ _ hfr]
        | some l' => rw [getLast?_cons_of_isSome _ _ _ hfr]
      · by_cases h3 : l.type = 'I'
        · have hscan : symmap_scan ident dA iA (l :: rest) =
              symmap_scan ident dA
                { iA with core_offset := l.offset, mem_offset := l.mem, size := l.size, ident := ident }
                rest := by
            rw [symmap_scan_cons, if_neg (by simp [h1]), if_neg h2, if_pos h3]
          have hfd : (List.filter (fun l => l.ident = ident ∧ (l.type = 'D' ∨ l.type = 'N')) (l :: rest)) =
              List.filter (fun l => l.ident = ident ∧ (l.type = 'D' ∨ l.type = 'N')) rest := by
            simp [List.filter_cons, h2]
          have hfi : (List.filter (fun l => l.ident = ident ∧ l.type = 'I') (l :: rest)) =
              l :: List.filter (fun l => l.ident = ident ∧ l.type = 'I') rest := by
            simp [List.filter_cons, h1, h3]
          rw [hscan, hfd, hfi]
          obtain ⟨ihd, ihi⟩ := ih dA
            { iA with core_offset := l.offset, mem_offset := l.mem, size := l.size, ident := ident }
          refine ⟨ihd, ?_⟩
          rw [ihi]
          cases hfr : (List.filter (fun l => l.ident = ident ∧ l.type = 'I') rest).getLast? with
          | none => rw [getLast?_cons_of_none _ _ hfr]
          | some l' => rw [getLast?_cons_of_isSome _ _ _ hfr]
        · have hscan : symmap_scan ident dA iA (l :: rest) = symmap_scan ident dA iA rest := by
            rw [symmap_scan_cons, if_neg (by simp [h1]), if_neg h2, if_neg h3]
          have hfd : (List.filter (fun l => l.ident = ident ∧ (l.type = 'D' ∨ l.type = 'N')) (l :: rest)) =
              List.filter (fun l => l.ident = ident ∧ (l.type = 'D' ∨ l.type = 'N')) rest := by
            simp [List.filter_cons, h2]
          have hfi : (List.filter (fun l => l.ident = ident ∧ l.type = 'I') (l :: rest)) =
              List.filter (fun l => l.ident = ident ∧ l.type = 'I') rest := by
            simp [List.filter_cons, h3]
          rw [hscan, hfd, hfi]
          exact ih dA iA
    · have hscan : symmap_scan ident dA iA (l :: rest) = symmap_scan ident dA iA rest := by
        rw [symmap_scan_cons, if_pos (by simp [h1])]
      have hfd : (List.filter (fun l => l.ident = ident ∧ (l.type = 'D' ∨ l.type = 'N')) (l :: rest)) =
          List.filter (fun l => l.ident = ident ∧ (l.type = 'D' ∨ l.type = 'N')) rest := by
        simp [List.filter_cons, h1]
      have hfi : (List.filter (fun l => l.ident = ident ∧ l.type = 'I') (l :: rest)) =
          List.filter (fun l => l.ident = ident ∧ l.type = 'I') rest := by
        simp [List.filter_cons, h1]
      rw [hscan, hfd, hfi]
      exact ih dA iA

/-- The dump-offset adjustment in `get_ident_data` leaves the direct record's
core offset, memory offset and size untouched, and leaves the indirect record
untouched entirely. -/
theorem get_ident_data_fields (ident : String) (symmap : List SymLine) :
    (get_ident_data ident symmap).2.1.core_offset =
      (symmap_scan ident initIdent initIdent symmap).1.core_offset ∧
    (get_ident_data ident symmap).2.1.mem_offset =
      (symmap_scan ident initIdent initIdent symmap).1.mem_offset ∧
    (get_ident_data ident symmap).2.1.size =
      (symmap_scan ident initIdent initIdent symmap).1.size ∧
    (get_ident_data ident symmap).2.2 =
      (symmap_scan ident initIdent initIdent symmap).2 := by
  unfold get_ident_data
  by_cases h : (symmap_scan ident initIdent initIdent symmap).2.size ≠ 0 ∧
      (symmap_scan ident initIdent initIdent symmap).1.size ≠ 0 <;>
    simp [h]

/-- Claim C4: for each placement kind, resolution returns the core offset,
memory address and size of the *last* well-formed map line of that ident and
kind (`D`/`N` for direct, `I` for indirect); when no line of a kind matches,
the record of that kind keeps size 0. Lines of the other kind do not affect
the record. -/
theorem c4_last_line_of_kind_wins (symmap : List SymLine) (ident : String) :
    (match (symmap.filter fun l => l.ident = ident ∧ (l.type = 'D' ∨ l.type = 'N')).getLast? with
     | none => (get_ident_data ident symmap).2.1.size = 0
     | some l =>
        (get_ident_data ident symmap).2.1.core_offset = l.offset ∧
        (get_ident_data ident symmap).2.1.mem_offset = l.mem ∧
        (get_ident_data ident symmap).2.1.size = l.size) ∧
    (match (symmap.filter fun l => l.ident = ident ∧ l.type = 'I').getLast? with
     | none => (get_ident_data ident symmap).2.2.size = 0
     | some l =>
        (get_ident_data ident symmap).2.2.core_offset = l.offset ∧
        (get_ident_data ident symmap).2.2.mem_offset = l.mem ∧
        (get_ident_data ident symmap).2.2.size = l.size) := by
  obtain ⟨hco, hmo, hsz, hind⟩ := get_ident_data_fields ident symmap
  obtain ⟨hd, hi⟩ := symmap_scan_char ident initIdent initIdent symmap
  constructor
  · cases hfr : (symmap.filter fun l => l.ident = ident ∧ (l.type = 'D' ∨ l.type = 'N')).getLast? with
    | none =>
      rw [hfr] at hd
      simp only [hsz, hd]
      rfl
    | some l =>
      rw [hfr] at hd
      exact ⟨by rw [hco, hd], by rw [hmo, hd], by rw [hsz, hd]⟩
  · cases hfr : (symmap.filter fun l => l.ident = ident ∧ l.type = 'I').getLast? with
    | none =>
      rw [hfr] at hi
      simp only [hind, hi]
      rfl
    | some l =>
      rw [hfr] at hi
      rw [hind, hi]
      exact ⟨rfl, rfl, rfl⟩

/-- Claim C5: the raw direct dump offset produced by the scan is 0, and the
resolved direct dump offset equals the raw offset plus the indirect size
exactly when both sizes are nonzero; otherwise it is the raw offset,
unchanged. -/
theorem c5_offset_adjustment (symmap : List SymLine) (ident : String) :
    (symmap_scan ident initIdent initIdent symmap).1.dump_offset = 0 ∧
    (get_ident_data ident symmap).2.1.dump_offset =
      (symmap_scan ident initIdent initIdent symmap).1.dump_offset +
        (if (symmap_scan ident initIdent initIdent symmap).2.size ≠ 0 ∧
            (symmap_scan ident initIdent initIdent symmap).1.size ≠ 0 then
          (symmap_scan ident initIdent initIdent symmap).2.size
        else 0) := by
  obtain ⟨hd, _⟩ := symmap_scan_char ident initIdent initIdent symmap
  constructor
  · cases hfr : (symmap.filter fun l => l.ident = ident ∧ (l.type = 'D' ∨ l.type = 'N')).getLast? with
    | none => rw [hfr] at hd; rw [hd]; rfl
    | some l => rw [hfr] at hd; rw [hd]; rfl
  · unfold get_ident_data
    by_cases h : (symmap_scan ident initIdent initIdent symmap).2.size ≠ 0 ∧
        (symmap_scan ident initIdent initIdent symmap).1.size ≠ 0 <;>
      simp [h]

/-! ## Override table claims (C2) -/

/-- Unfolding equation for one step of `check_user_data`. -/
theorem check_user_data_cons (d : IdentData) (o : ProgOption) (rest : List ProgOption) :
    check_user_data d (o :: rest) =
      (if o.processed then
        ((check_user_data d rest).1, o :: (check_user_data d rest).2)
      else if o.ident = d.ident then
        ((check_user_data
            { d with size := o.size, dump_offset := o.offset, filename := o.filename } rest).1,
          { o with processed := true } ::
            (check_user_data
              { d with size := o.size, dump_offset := o.offset, filename := o.filename } rest).2)
      else
        ((check_user_data d rest).1, o :: (check_user_data d rest).2)) := by
  rfl

/-- Characterization of `check_user_data`: every unconsumed matching override
is marked processed (all of them, not just the first), other options are
untouched, and the resulting placement carries size, dump offset and filename
of the *last* unconsumed matching override, or is unchanged when none
matches. -/
theorem check_user_data_char (d : IdentData) (opts : List ProgOption) :
    (check_user_data d opts).2 =
      opts.map (fun o =>
        if o.processed = false ∧ o.ident = d.ident then { o with processed := true } else o) ∧
    (check_user_data d opts).1 =
      (match (opts.filter fun o => o.processed = false ∧ o.ident = d.ident).getLast? with
       | none => d
       | some o =>
          { d with size := o.size, dump_offset := o.offset, filename := o.filename }) := by
  induction opts generalizing d with
  | nil => exact ⟨rfl, rfl⟩
  | cons o rest ih =>
    by_cases hp : o.processed
    · have hmap : (o :: rest).map (fun o =>
          if o.processed = false ∧ o.ident = d.ident then { o with processed := true } else o) =
          o :: rest.map (fun o =>
            if o.processed = false ∧ o.ident = d.ident then { o with processed := true } else o) := by
        simp [hp]
      have hfil : ((o :: rest).filter fun o => o.processed = false ∧ o.ident = d.ident) =
          rest.filter fun o => o.processed = false ∧ o.ident = d.ident := by
        simp [List.filter_cons, hp]
      rw [check_user_data_cons, if_pos hp, hmap, hfil]
      exact ⟨by rw [(ih d).1], by rw [(ih d).2]⟩
    · by_cases hi : o.ident = d.ident
      · have hmap : (o :: rest).map (fun o =>
            if o.processed = false ∧ o.ident = d.ident then { o with processed := true } else o) =
            { o with processed := true } :: rest.map (fun o =>
              if o.processed = false ∧ o.ident = d.ident then { o with processed := true } else o) := by
          simp [hp, hi]
        have hfil : ((o :: rest).filter fun o => o.processed = false ∧ o.ident = d.ident) =
            o :: (rest.filter fun o => o.processed = false ∧ o.ident = d.ident) := by
          simp [List.filter_cons, hp, hi]
        rw [check_user_data_cons, if_neg (by simp [hp]), if_pos hi, hmap, hfil]
        obtain ⟨ihm, ihf⟩ :=
          ih { d with size := o.size, dump_offset := o.offset, filename := o.filename }
        constructor
        · rw [ihm]
        · rw [ihf]
          cases hfr : (rest.filter fun o => o.processed = false ∧ o.ident = d.ident).getLast? with
          | none => rw [getLast?_cons_of_none _ _ hfr]
          | some o' => rw [getLast?_cons_of_isSome _ _ _ hfr]
      · have hmap : (o :: rest).map (fun o =>
            if o.processed = false ∧ o.ident = d.ident then { o with processed := true } else o) =
            o :: rest.map (fun o =>
              if o.processed = false ∧ o.ident = d.ident then { o with processed := true } else o) := by
          simp [hi]
        have hfil : ((o :: rest).filter fun o => o.processed = false ∧ o.ident = d.ident) =
            rest.filter fun o => o.processed = false ∧ o.ident = d.ident := by
          simp [List.filter_cons, hi]
        rw [check_user_data_cons, if_neg (by simp [hp]), if_neg hi, hmap, hfil]
        exact ⟨by rw [(ih d).1], by rw [(ih d).2]⟩

/-- Counterexample to claim C2 as stated: with two unconsumed overrides for
ident `X` (sizes 1 and 2), one application of `check_user_data` installs the
values of the *second* (last) override, not the first, and consumes *both*
overrides, not at most one. -/
theorem c2_first_override_counterexample :
    (check_user_data ⟨"", "X", 0, 0, 0, 4⟩
      [⟨false, 1, 10, "X", "f1"⟩, ⟨false, 2, 20, "X", "f2"⟩]).1.size = 2 ∧
    (check_user_data ⟨"", "X", 0, 0, 0, 4⟩
      [⟨false, 1, 10, "X", "f1"⟩, ⟨false, 2, 20, "X", "f2"⟩]).1.filename = "f2" ∧
    (check_user_data ⟨"", "X", 0, 0, 0, 4⟩
      [⟨false, 1, 10, "X", "f1"⟩, ⟨false, 2, 20, "X", "f2"⟩]).2 =
      [⟨true, 1, 10, "X", "f1"⟩, ⟨true, 2, 20, "X", "f2"⟩] := by
  decide

/-- Claim C2, amended: applying overrides scans the unconsumed overrides in
insertion order and *every* unconsumed override whose ident matches
overwrites the placement's size, source offset and source and is marked
consumed, so the values of the last matching unconsumed override persist;
options already consumed (and non-matching ones) pass through unchanged,
which is why an override is applied to at most one placement resolution
across the run. -/
theorem c2_overrides_last_match_consume_all (d : IdentData) (opts : List ProgOption) :
    (check_user_data d opts).2 =
      opts.map (fun o =>
        if o.processed = false ∧ o.ident = d.ident then { o with processed := true } else o) ∧
    (check_user_data d opts).1 =
      (match (opts.filter fun o => o.processed = false ∧ o.ident = d.ident).getLast? with
       | none => d
       | some o =>
          { d with size := o.size, dump_offset := o.offset, filename := o.filename }) :=
  check_user_data_char d opts

/-- Mark every unconsumed override of this ident as consumed. -/
def cudMark (id : String) (opts : List ProgOption) : List ProgOption :=
  opts.map (fun o => if o.processed = false ∧ o.ident = id then { o with processed := true } else o)

theorem get_ident_data_ret (ident : String) (symmap : List SymLine) :
    (get_ident_data ident symmap).1 = 0 := rfl

theorem get_ident_data_direct_ident (ident : String) (symmap : List SymLine)
    (h : 0 < (get_ident_data ident symmap).2.1.size) :
    (get_ident_data ident symmap).2.1.ident = ident := by
  have hsz := (get_ident_data_fields ident symmap).2.2.1
  have hid : (get_ident_data ident symmap).2.1.ident =
      (symmap_scan ident initIdent initIdent symmap).1.ident := by
    unfold get_ident_data
    by_cases hc : (symmap_scan ident initIdent initIdent symmap).2.size ≠ 0 ∧
        (symmap_scan ident initIdent initIdent symmap).1.size ≠ 0 <;> simp [hc]
  obtain ⟨hd, _⟩ := symmap_scan_char ident initIdent initIdent symmap
  rw [hid]
  cases hfr : (symmap.filter fun l => l.ident = ident ∧ (l.type = 'D' ∨ l.type = 'N')).getLast? with
  | none =>
    rw [hfr] at hd
    rw [hsz, hd] at h
    simp [initIdent] at h
  | some l =>
    rw [hfr] at hd
    rw [hd]

theorem ilor_err_iff (a b : Int) (ha : a = 0 ∨ a = -1) (hb : b = 0 ∨ b = -1) :
    (Int.lor a b ≠ 0 ↔ (decide (a ≠ 0) || decide (b ≠ 0)) = true) := by
  rcases ha with rfl | rfl <;> rcases hb with rfl | rfl <;>
    simp [ilor_zero_left, ilor_neg_one_zero, ilor_neg_one_neg_one]

theorem inject_data_master (env : IOEnv) (fs : String → Option (List Nat))
    (symmap : List SymLine) (b_fname : String) (opts : List ProgOption)
    (core : List Nat) (dl : List CoreData) :
    ∃ t : List Event,
      (inject_data env fs symmap b_fname opts core dl).events = Event.inj b_fname :: t ∧
      (∀ e ∈ t, isInj e = false ∧ isNotify e = false) ∧
      ((inject_data env fs symmap b_fname opts core dl).err ≠ 0 ↔ t.any isFailEv = true) ∧
      ((inject_data env fs symmap b_fname opts core dl).options = opts ∨
        (inject_data env fs symmap b_fname opts core dl).options =
          cudMark (path_ident b_fname) opts) := by
  have hidd := get_ident_data_direct_ident (path_ident b_fname) symmap
  simp only [inject_data]
  rw [if_neg (by rw [get_ident_data_ret]; simp)]
  generalize hg : get_ident_data (path_ident b_fname) symmap = g at hidd ⊢
  obtain ⟨r0, gD, gI⟩ := g
  by_cases hpos : 0 < gD.size
  · rw [if_pos hpos]
    have hidd2 : 0 < gD.size → gD.ident = path_ident b_fname := hidd
    generalize hr : check_user_data { gD with filename := b_fname } opts = r
    have hopts : r.2 = cudMark (path_ident b_fname) opts := by
      rw [← hr, (check_user_data_char _ _).1]
      unfold cudMark
      simp [hidd2 hpos]
    cases hfsD : fs r.1.filename with
    | none =>
      simp only [hfsD]
      refine ⟨_, rfl, ?_, ?_, Or.inr hopts⟩
      · simp [isInj, isNotify]
      · simp [isFailEv]
    | some dcD =>
      simp only [hfsD]
      by_cases hind : 0 < gI.size
      · rw [if_pos hind]
        cases hfsI : fs b_fname with
        | none =>
          simp only [hfsI]
          refine ⟨_, rfl, ?_, ?_, Or.inr hopts⟩
          · simp [isInj, isNotify]
          · simp [isFailEv]
        | some dcI =>
          simp only [hfsI]
          refine ⟨_, rfl, ?_, ?_, Or.inr hopts⟩
          · simp [isInj, isNotify]
          · show Int.lor (Int.lor 0 _) _ ≠ 0 ↔ _
            rw [ilor_zero_left]
            rw [ilor_err_iff _ _ (write_core_err_cases env core dcD r.1 true dl)
              (write_core_err_cases env (write_core env core dcD r.1 true dl).core dcI
                { gI with filename := b_fname } false
                (write_core env core dcD r.1 true dl).dump_list)]
            simp [isFailEv]
      · rw [if_neg hind]
        refine ⟨_, rfl, ?_, ?_, Or.inr hopts⟩
        · simp [isInj, isNotify]
        · show Int.lor 0 _ ≠ 0 ↔ _
          rw [ilor_zero_left]
          simp [isFailEv]
  · rw [if_neg hpos]
    by_cases hind : 0 < gI.size
    · rw [if_pos hind]
      cases hfsI : fs b_fname with
      | none =>
        simp only [hfsI]
        refine ⟨_, rfl, ?_, ?_, ?_⟩
        · simp [isInj, isNotify]
        · simp [isFailEv]
        · exact Or.inl (by trivial)
      | some dcI =>
        simp only [hfsI]
        refine ⟨_, rfl, ?_, ?_, ?_⟩
        · simp [isInj, isNotify]
        · show Int.lor 0 _ ≠ 0 ↔ _
          rw [ilor_zero_left]
          simp [isFailEv]
        · exact Or.inl (by trivial)
    · rw [if_neg hind]
      refine ⟨_, rfl, ?_, ?_, ?_⟩
      · simp
      · simp
      · exact Or.inl (by trivial)

/-! ## Injection orchestrator claims (C10, C1) -/

/-- Claim C10: when resolution yields both a direct and an indirect placement
(nonzero sizes), a failed open of the resolved direct source returns failure
at once — no transfer (direct or indirect) is attempted and the core is
untouched; while a successful direct open followed by a failed direct
transfer still attempts the indirect transfer, and the reported flag is the
combined `-1`. -/
theorem c10_direct_open_gates_indirect (env : IOEnv) (fs : String → Option (List Nat))
    (symmap : List SymLine) (b_fname : String) (opts : List ProgOption)
    (core : List Nat) (dl : List CoreData)
    (hpos : 0 < (get_ident_data (path_ident b_fname) symmap).2.1.size)
    (hind : 0 < (get_ident_data (path_ident b_fname) symmap).2.2.size) :
    (fs (check_user_data { (get_ident_data (path_ident b_fname) symmap).2.1 with
        filename := b_fname } opts).1.filename = none →
      (inject_data env fs symmap b_fname opts core dl).err = -1 ∧
      (inject_data env fs symmap b_fname opts core dl).events.countP isWc = 0 ∧
      (inject_data env fs symmap b_fname opts core dl).core = core) ∧
    (∀ dcD dcI : List Nat,
      fs (check_user_data { (get_ident_data (path_ident b_fname) symmap).2.1 with
        filename := b_fname } opts).1.filename = some dcD →
      fs b_fname = some dcI →
      (write_core env core dcD (check_user_data
        { (get_ident_data (path_ident b_fname) symmap).2.1 with
          filename := b_fname } opts).1 true dl).err ≠ 0 →
      (inject_data env fs symmap b_fname opts core dl).events.countP isWcInd = 1 ∧
      (inject_data env fs symmap b_fname opts core dl).err = -1) := by
  simp only [inject_data]
  rw [if_neg (by rw [get_ident_data_ret]; simp)]
  rw [if_pos hpos]
  constructor
  · intro hfsD
    simp only [hfsD]
    exact ⟨by trivial, by simp [isWc], by trivial⟩
  · intro dcD dcI hfsD hfsI hwD
    simp only [hfsD]
    rw [if_pos hind]
    simp only [hfsI]
    constructor
    · simp [isWcInd]
    · show Int.lor (Int.lor 0 _) _ = -1
      rw [ilor_zero_left]
      have h1 := write_core_err_cases env core dcD (check_user_data
        { (get_ident_data (path_ident b_fname) symmap).2.1 with
          filename := b_fname } opts).1 true dl
      rcases h1 with h1 | h1
      · exact absurd h1 hwD
      · rw [h1]
        exact ilor_neg_one_left _ (write_core_err_cases env _ dcI _ false _)

/-- Witness for C10: with a map defining direct size 2 and indirect size 3
for `X`, (a) a file system with no files makes the injection fail with no
transfer attempted; (b) a file system holding an empty file `X` opens fine
but the direct transfer fails (short read), and the indirect transfer is
still attempted. -/
theorem c10_direct_open_gates_indirect_witness :
    ((inject_data okEnv (fun _ => none)
        [⟨0, 0, 2, 'D', "X"⟩, ⟨4, 0, 3, 'I', "X"⟩] "X" [] [9] []).err = -1 ∧
      (inject_data okEnv (fun _ => none)
        [⟨0, 0, 2, 'D', "X"⟩, ⟨4, 0, 3, 'I', "X"⟩] "X" [] [9] []).events.countP isWc = 0 ∧
      (inject_data okEnv (fun _ => none)
        [⟨0, 0, 2, 'D', "X"⟩, ⟨4, 0, 3, 'I', "X"⟩] "X" [] [9] []).core = [9]) ∧
    ((inject_data okEnv (fun s => if s = "X" then some [] else none)
        [⟨0, 0, 2, 'D', "X"⟩, ⟨4, 0, 3, 'I', "X"⟩] "X" [] [9] []).events.countP isWcInd = 1 ∧
      (inject_data okEnv (fun s => if s = "X" then some [] else none)
        [⟨0, 0, 2, 'D', "X"⟩, ⟨4, 0, 3, 'I', "X"⟩] "X" [] [9] []).err = -1) := by
  constructor
  · exact (c10_direct_open_gates_indirect okEnv (fun _ => none)
      [⟨0, 0, 2, 'D', "X"⟩, ⟨4, 0, 3, 'I', "X"⟩] "X" [] [9] []
      (by decide) (by decide)).1 rfl
  · exact (c10_direct_open_gates_indirect okEnv (fun s => if s = "X" then some [] else none)
      [⟨0, 0, 2, 'D', "X"⟩, ⟨4, 0, 3, 'I', "X"⟩] "X" [] [9] []
      (by decide) (by decide)).2 [] [] (by decide) (by decide) (by decide)

/-- Claim C1 (code bug): `get_ident_data` always returns 0, so the
ident-not-found branch of `inject_data` is unreachable: a run whose dump
file's ident appears on no map line silently succeeds — nothing is reported,
the exit status is 0 and the (empty) ledger is even handed downstream —
where the claim requires a reported `IdentNotFound` failure and a nonzero
exit status. -/
theorem c1_ident_not_found_is_silent :
    (∀ (ident : String) (symmap : List SymLine), (get_ident_data ident symmap).1 = 0) ∧
    (mainRun okEnv (fun _ => none) [] ["map", "foo"] [] []).err = 0 ∧
    (mainRun okEnv (fun _ => none) [] ["map", "foo"] [] []).events =
      [.inj "map", .inj "foo", .notify [] 0] := by
  exact ⟨fun _ _ => rfl, by decide, by decide⟩

/-! ## Notification gate claim (C6) -/

theorem injectStep_no_notify (env : IOEnv) (fs : String → Option (List Nat))
    (symmap : List SymLine) (st : MState) (fname : String)
    (hst : ∀ e ∈ st.events, isNotify e = false) :
    ∀ e ∈ (injectStep env fs symmap st fname).events, isNotify e = false := by
  obtain ⟨t, he, hcl, _, _⟩ :=
    inject_data_master env fs symmap fname st.options st.core st.dump_list
  intro e hm
  simp only [injectStep] at hm
  rw [he] at hm
  rcases List.mem_append.mp hm with h | h
  · exact hst e h
  · rcases List.mem_cons.mp h with rfl | h
    · rfl
    · exact (hcl e h).2

theorem positional_pass_no_notify (env : IOEnv) (fs : String → Option (List Nat))
    (symmap : List SymLine) (args : List String) (options : List ProgOption)
    (core : List Nat) :
    ∀ e ∈ (positional_pass env fs symmap args options core).events, isNotify e = false := by
  suffices h : ∀ (args : List String) (st : MState),
      (∀ e ∈ st.events, isNotify e = false) →
      ∀ e ∈ (List.foldl (injectStep env fs symmap) st args).events, isNotify e = false by
    exact h args _ (by intro e hm; simp at hm)
  intro args
  induction args with
  | nil => intro st hst; exact hst
  | cons a rest ih =>
    intro st hst
    exact ih _ (injectStep_no_notify env fs symmap st a hst)

theorem leftoverGo_no_notify (env : IOEnv) (fs : String → Option (List Nat))
    (symmap : List SymLine) : ∀ (n k : Nat) (st : MState),
    (∀ e ∈ st.events, isNotify e = false) →
    ∀ e ∈ (leftoverGo env fs symmap n k st).events, isNotify e = false := by
  intro n
  induction n with
  | zero => intro k st hst; exact hst
  | succ m ih =>
    intro k st hst
    have hstep : leftoverGo env fs symmap (m + 1) k st =
        leftoverGo env fs symmap m (k + 1)
          (match st.options[k]? with
           | none => st
           | some o => if o.processed then st else injectStep env fs symmap st o.ident) := rfl
    rw [hstep]
    apply ih
    cases hk : st.options[k]? with
    | none => simp only [hk]; exact hst
    | some o =>
      simp only [hk]
      by_cases hp : o.processed
      · rw [if_pos hp]; exact hst
      · rw [if_neg hp]; exact injectStep_no_notify env fs symmap st o.ident hst

theorem mainBody_no_notify (env : IOEnv) (fs : String → Option (List Nat))
    (symmap : List SymLine) (args : List String) (options : List ProgOption)
    (core : List Nat) :
    ∀ e ∈ (mainBody env fs symmap args options core).events, isNotify e = false := by
  simp only [mainBody]
  exact leftoverGo_no_notify env fs symmap _ _ _
    (positional_pass_no_notify env fs symmap args options core)

/-- In a list of non-notification events followed by one trailing
notification, every transfer event strictly precedes every notification
event. -/
theorem notify_after_all (l : List Event) (x : Event)
    (hl : ∀ e ∈ l, isNotify e = false) (hx : isWc x = false) :
    ∀ i j : Fin (l ++ [x]).length, isNotify ((l ++ [x]).get i) = true →
      isWc ((l ++ [x]).get j) = true → (j : Nat) < (i : Nat) := by
  intro i j hni hwj
  rw [List.get_eq_getElem] at hni hwj
  by_cases hi : (i : Nat) < l.length
  · rw [List.getElem_append_left hi] at hni
    exact absurd hni (by simp [hl _ (List.getElem_mem hi)])
  · by_cases hj : (j : Nat) < l.length
    · omega
    · exfalso
      have hjlen := j.isLt
      simp only [List.length_append, List.length_singleton] at hjlen
      have hx0 : (l ++ [x])[(j : Nat)] = x := by
        rw [List.getElem_append_right (by omega)]
        have : (j : Nat) - l.length = 0 := by omega
        simp [this]
      rw [hx0] at hwj
      rw [hwj] at hx
      simp at hx

/-- In a list with no notification events the ordering property is vacuous. -/
theorem notify_order_vacuous (l : List Event)
    (hl : ∀ e ∈ l, isNotify e = false) :
    ∀ i j : Fin l.length, isNotify (l.get i) = true →
      isWc (l.get j) = true → (j : Nat) < (i : Nat) := by
  intro i j hni _
  rw [List.get_eq_getElem] at hni
  exact absurd hni (by simp [hl _ (List.getElem_mem i.isLt)])

/-- Claim C6: in every run the downstream notification fires at most once —
exactly when the accumulated error flag is zero — and, when it fires, it is
the final event, after every transfer attempt; the gate changes neither the
core bytes already written nor the ledger (no rollback), and the
notification hands over the final ledger and the final core size. -/
theorem c6_notify_gate (env : IOEnv) (fs : String → Option (List Nat))
    (symmap : List SymLine) (args : List String) (options : List ProgOption)
    (core : List Nat) :
    ((mainRun env fs symmap args options core).events.countP isNotify =
      if (mainRun env fs symmap args options core).err = 0 then 1 else 0) ∧
    (∀ i j : Fin (mainRun env fs symmap args options core).events.length,
      isNotify ((mainRun env fs symmap args options core).events.get i) = true →
      isWc ((mainRun env fs symmap args options core).events.get j) = true →
      (j : Nat) < (i : Nat)) ∧
    (mainRun env fs symmap args options core).core =
      (mainBody env fs symmap args options core).core ∧
    (mainRun env fs symmap args options core).dump_list =
      (mainBody env fs symmap args options core).dump_list ∧
    (mainRun env fs symmap args options core).err =
      (mainBody env fs symmap args options core).err ∧
    ((mainRun env fs symmap args options core).err = 0 →
      (mainRun env fs symmap args options core).events =
        (mainBody env fs symmap args options core).events ++
          [.notify (mainBody env fs symmap args options core).dump_list
            (mainBody env fs symmap args options core).core.length]) := by
  have hb := mainBody_no_notify env fs symmap args options core
  have hzero : (mainBody env fs symmap args options core).events.countP isNotify = 0 :=
    List.countP_eq_zero.mpr (by intro e he; simp [hb e he])
  by_cases hz : (mainBody env fs symmap args options core).err = 0
  · have hrun : mainRun env fs symmap args options core =
        { mainBody env fs symmap args options core with
          events := (mainBody env fs symmap args options core).events ++
            [.notify (mainBody env fs symmap args options core).dump_list
              (mainBody env fs symmap args options core).core.length] } := by
      simp only [mainRun]
      rw [if_pos hz]
    rw [hrun]
    refine ⟨?_, ?_, rfl, rfl, hz.trans hz.symm ▸ rfl, fun _ => rfl⟩
    · show ((mainBody env fs symmap args options core).events ++ [_]).countP isNotify = _
      rw [List.countP_append, hzero]
      simp [isNotify, hz]
    · exact notify_after_all _ _ hb rfl
  · have hrun : mainRun env fs symmap args options core =
        mainBody env fs symmap args options core := by
      simp only [mainRun]
      rw [if_neg hz]
    rw [hrun]
    refine ⟨?_, notify_order_vacuous _ hb, rfl, rfl, rfl, fun h0 => absurd h0 hz⟩
    rw [hzero, if_neg hz]

/-- Witness for C6: a successful run with one direct transfer. Its four
events are the two injection calls, the transfer, and the final
notification; the notification count is 1, the transfer (index 2) precedes
the notification (index 3), and the notification carries the final ledger
and core size. -/
theorem c6_notify_gate_witness :
    ((mainRun okEnv (fun s => if s = "X" then some [7, 8] else none)
        [⟨0, 5, 2, 'D', "X"⟩] ["m", "X"] [] []).events.countP isNotify =
      if (mainRun okEnv (fun s => if s = "X" then some [7, 8] else none)
        [⟨0, 5, 2, 'D', "X"⟩] ["m", "X"] [] []).err = 0 then 1 else 0) ∧
    (2 : Nat) < 3 ∧
    (mainRun okEnv (fun s => if s = "X" then some [7, 8] else none)
        [⟨0, 5, 2, 'D', "X"⟩] ["m", "X"] [] []).events =
      (mainBody okEnv (fun s => if s = "X" then some [7, 8] else none)
        [⟨0, 5, 2, 'D', "X"⟩] ["m", "X"] [] []).events ++
        [.notify (mainBody okEnv (fun s => if s = "X" then some [7, 8] else none)
            [⟨0, 5, 2, 'D', "X"⟩] ["m", "X"] [] []).dump_list
          (mainBody okEnv (fun s => if s = "X" then some [7, 8] else none)
            [⟨0, 5, 2, 'D', "X"⟩] ["m", "X"] [] []).core.length] := by
  refine ⟨(c6_notify_gate okEnv (fun s => if s = "X" then some [7, 8] else none)
      [⟨0, 5, 2, 'D', "X"⟩] ["m", "X"] [] []).1, ?_,
    (c6_notify_gate okEnv (fun s => if s = "X" then some [7, 8] else none)
      [⟨0, 5, 2, 'D', "X"⟩] ["m", "X"] [] []).2.2.2.2.2 (by decide)⟩
  exact (c6_notify_gate okEnv (fun s => if s = "X" then some [7, 8] else none)
      [⟨0, 5, 2, 'D', "X"⟩] ["m", "X"] [] []).2.1
    ⟨3, by decide⟩ ⟨2, by decide⟩ (by decide) (by decide)

/-! ## Leftover-override pass claim (C9) -/

theorem isInj_false_injName (e : Event) (h : isInj e = false) : injName e = none := by
  cases e <;> simp [isInj] at h ⊢ <;> rfl

theorem cudMark_idents (id : String) (opts : List ProgOption) :
    (cudMark id opts).map (fun o => o.ident) = opts.map (fun o => o.ident) := by
  unfold cudMark
  rw [List.map_map]
  apply List.map_congr_left
  intro o _
  by_cases h : o.processed = false ∧ o.ident = id <;> simp [h]

theorem cudMark_no_match (nm : String) (l : List ProgOption)
    (h : ∀ o ∈ l, o.ident ≠ nm) : cudMark nm l = l := by
  unfold cudMark
  have h2 : ∀ o ∈ l, (if o.processed = false ∧ o.ident = nm
      then ({ o with processed := true } : ProgOption) else o) = o := by
    intro o ho
    rw [if_neg (by simp [h o ho])]
  rw [List.map_congr_left h2]
  simp

theorem injectStep_idents (env : IOEnv) (fs : String → Option (List Nat))
    (symmap : List SymLine) (st : MState) (fname : String) :
    (injectStep env fs symmap st fname).options.map (fun o => o.ident) =
      st.options.map (fun o => o.ident) := by
  obtain ⟨t, _, _, _, hop⟩ :=
    inject_data_master env fs symmap fname st.options st.core st.dump_list
  show (inject_data env fs symmap fname st.options st.core st.dump_list).options.map _ = _
  rcases hop with h | h
  · rw [h]
  · rw [h, cudMark_idents]

theorem positional_pass_idents (env : IOEnv) (fs : String → Option (List Nat))
    (symmap : List SymLine) (args : List String) (options : List ProgOption)
    (core : List Nat) :
    (positional_pass env fs symmap args options core).options.map (fun o => o.ident) =
      options.map (fun o => o.ident) := by
  suffices h : ∀ (args : List String) (st : MState),
      (List.foldl (injectStep env fs symmap) st args).options.map (fun o => o.ident) =
        st.options.map (fun o => o.ident) by
    exact h args _
  intro args
  induction args with
  | nil => intro st; rfl
  | cons a rest ih =>
    intro st
    exact (ih _).trans (injectStep_idents env fs symmap st a)

theorem pairwise_idents_of_map_eq (l₁ l₂ : List ProgOption)
    (h : l₁.map (fun o => o.ident) = l₂.map (fun o => o.ident))
    (hp : l₁.Pairwise (fun a b => a.ident ≠ b.ident)) :
    l₂.Pairwise (fun a b => a.ident ≠ b.ident) := by
  have h1 : (l₁.map (fun o => o.ident)).Pairwise (· ≠ ·) := List.pairwise_map.mpr hp
  rw [h] at h1
  exact List.pairwise_map.mp h1

theorem slash_of_map_eq (l₁ l₂ : List ProgOption)
    (h : l₁.map (fun o => o.ident) = l₂.map (fun o => o.ident))
    (hs : ∀ o ∈ l₁, path_ident o.ident = o.ident) :
    ∀ o ∈ l₂, path_ident o.ident = o.ident := by
  intro o ho
  have hmem : o.ident ∈ l₂.map (fun o => o.ident) := List.mem_map_of_mem _ ho
  rw [← h] at hmem
  obtain ⟨o', ho', he⟩ := List.mem_map.mp hmem
  rw [← he]
  exact hs o' ho'

theorem length_of_idents_eq (l₁ l₂ : List ProgOption)
    (h : l₁.map (fun o => o.ident) = l₂.map (fun o => o.ident)) :
    l₁.length = l₂.length := by
  have := congrArg List.length h
  simpa using this

theorem drop_succ_no_match (opts : List ProgOption) (k : Nat) (o : ProgOption)
    (hk : opts[k]? = some o)
    (hdist : opts.Pairwise (fun a b => a.ident ≠ b.ident)) :
    ∀ o' ∈ opts.drop (k + 1), o'.ident ≠ o.ident := by
  intro o' ho'
  obtain ⟨i, hi, hgi⟩ := List.mem_iff_getElem.mp ho'
  rw [List.getElem_drop] at hgi
  obtain ⟨hklen, hok⟩ := List.getElem?_eq_some.mp hk
  have hilen : k + 1 + i < opts.length := by
    have := hi
    simp [List.length_drop] at this
    omega
  have hp := List.pairwise_iff_getElem.mp hdist k (k + 1 + i) hklen hilen (by omega)
  rw [hok, hgi] at hp
  exact fun he => hp he.symm

/-- Characterization of the leftover-override loop: starting at position `k`
with enough fuel to reach the end, and assuming pairwise-distinct override
idents none of which contains a path separator, the loop makes exactly one
`inject_data` call for each override that is still unconsumed after the
positional pass (in list order, keyed by the override's own ident string),
and OR-accumulates a failure bit exactly when one of those calls failed. -/
theorem leftoverGo_char (env : IOEnv) (fs : String → Option (List Nat))
    (symmap : List SymLine) : ∀ (n k : Nat) (st : MState),
    st.options.Pairwise (fun a b => a.ident ≠ b.ident) →
    (∀ o ∈ st.options, path_ident o.ident = o.ident) →
    n + k = st.options.length →
    ∃ E : List Event,
      (leftoverGo env fs symmap n k st).events = st.events ++ E ∧
      E.filterMap injName =
        ((st.options.drop k).filter (fun o => o.processed = false)).map (fun o => o.ident) ∧
      (leftoverGo env fs symmap n k st).err =
        (st.err ||| if E.any isFailEv then 1 else 0) := by
  intro n
  induction n with
  | zero =>
    intro k st _ _ hlen
    have hdrop : st.options.drop k = [] := List.drop_eq_nil_of_le (by omega)
    exact ⟨[], by simp [leftoverGo], by simp [hdrop], by simp [leftoverGo]⟩
  | succ m ih =>
    intro k st hdist hslash hlen
    have hk : k < st.options.length := by omega
    have ho : st.options[k]? = some st.options[k] := List.getElem?_eq_getElem hk
    have hom : st.options[k] ∈ st.options := List.getElem_mem hk
    have hdropk : st.options.drop k = st.options[k] :: st.options.drop (k + 1) :=
      List.drop_eq_getElem_cons hk
    have hstep : leftoverGo env fs symmap (m + 1) k st =
        leftoverGo env fs symmap m (k + 1)
          (match st.options[k]? with
           | none => st
           | some o => if o.processed then st else injectStep env fs symmap st o.ident) := rfl
    rw [hstep]
    simp only [ho]
    by_cases hp : st.options[k].processed
    · rw [if_pos hp]
      obtain ⟨E, h1, h2, h3⟩ := ih (k + 1) st hdist hslash (by omega)
      refine ⟨E, h1, ?_, h3⟩
      rw [h2, hdropk, List.filter_cons, if_neg (by simp [hp])]
    · rw [if_neg hp]
      obtain ⟨t, hev, hcl, herr_iff, hop⟩ := inject_data_master env fs symmap
        st.options[k].ident st.options st.core st.dump_list
      have hev1 : (injectStep env fs symmap st st.options[k].ident).events =
          st.events ++ (Event.inj st.options[k].ident :: t) := by
        show st.events ++ _ = _
        rw [hev]
      have hids : (injectStep env fs symmap st st.options[k].ident).options.map
          (fun o => o.ident) = st.options.map (fun o => o.ident) :=
        injectStep_idents env fs symmap st st.options[k].ident
      have hlen1 : (injectStep env fs symmap st st.options[k].ident).options.length =
          st.options.length :=
        length_of_idents_eq _ _ hids
      have hdropeq : (injectStep env fs symmap st st.options[k].ident).options.drop (k + 1) =
          st.options.drop (k + 1) := by
        show (inject_data env fs symmap st.options[k].ident st.options st.core
          st.dump_list).options.drop (k + 1) = _
        rcases hop with h | h
        · rw [h]
        · rw [h, hslash st.options[k] hom]
          rw [show (cudMark st.options[k].ident st.options).drop (k + 1) =
              cudMark st.options[k].ident (st.options.drop (k + 1)) from by
            unfold cudMark; rw [← List.map_drop]]
          exact cudMark_no_match _ _ (drop_succ_no_match st.options k st.options[k] ho hdist)
      obtain ⟨E', h1', h2', h3'⟩ := ih (k + 1) (injectStep env fs symmap st st.options[k].ident)
        (pairwise_idents_of_map_eq _ _ hids.symm hdist)
        (slash_of_map_eq _ _ hids.symm hslash)
        (by rw [hlen1]; omega)
      refine ⟨(Event.inj st.options[k].ident :: t) ++ E', ?_, ?_, ?_⟩
      · rw [h1', hev1, List.append_assoc]
      · rw [List.filterMap_append]
        have hfmt : (Event.inj st.options[k].ident :: t).filterMap injName =
            [st.options[k].ident] := by
          rw [List.filterMap_cons]
          show (match injName (Event.inj st.options[k].ident) with
            | none => t.filterMap injName
            | some b => b :: t.filterMap injName) = _
          simp only [injName]
          rw [List.filterMap_eq_nil_iff.mpr (fun e he => isInj_false_injName e (hcl e he).1)]
        rw [hfmt, h2', hdropeq, hdropk, List.filter_cons, if_pos (by simp [hp])]
        simp
      · rw [h3']
        have herr1 : (injectStep env fs symmap st st.options[k].ident).err =
            if (inject_data env fs symmap st.options[k].ident st.options st.core
              st.dump_list).err ≠ 0 then st.err ||| 1 else st.err := rfl
        by_cases hf : (inject_data env fs symmap st.options[k].ident st.options st.core
            st.dump_list).err ≠ 0
        · have ht : t.any isFailEv = true := herr_iff.mp hf
          have hany : ((Event.inj st.options[k].ident :: t) ++ E').any isFailEv = true := by
            simp [List.any_append, ht, isFailEv]
          rw [herr1, if_pos hf, hany, if_pos rfl]
          by_cases hE : E'.any isFailEv = true
          · rw [hE, if_pos rfl, Nat.lor_assoc]
            rw [show (1 : Nat) ||| 1 = 1 from by decide]
          · rw [Bool.not_eq_true] at hE
            rw [hE]
            simp
        · have ht : t.any isFailEv = false := by
            rw [Bool.not_eq_true] at *
            by_contra hc
            rw [Bool.not_eq_false] at hc
            exact absurd (herr_iff.mpr hc) (by simpa using hf)
          have hany : ((Event.inj st.options[k].ident :: t) ++ E').any isFailEv =
              E'.any isFailEv := by
            simp [List.any_append, ht, isFailEv]
          rw [herr1, if_neg hf, hany]

/-- Counterexample to claim C9 as stated: with two registered overrides for
the same ident `X` (and a map entry for `X`), both are still unconsumed after
the positional pass, yet the run makes only two `inject_data` calls in total
(one positional, one leftover): the first leftover call consumes *both*
overrides, so the second override never triggers its own call — the claim
demands one additional call for *every* override still unconsumed after the
positional pass. -/
theorem c9_leftover_calls_counterexample :
    ((positional_pass okEnv (fun _ => none) [⟨0, 0, 4, 'D', "X"⟩] ["m"]
      [⟨false, 1, 10, "X", "f1"⟩, ⟨false, 2, 20, "X", "f2"⟩] []).options.filter
        (fun o => o.processed = false)).length = 2 ∧
    ((positional_pass okEnv (fun _ => none) [⟨0, 0, 4, 'D', "X"⟩] ["m"]
      [⟨false, 1, 10, "X", "f1"⟩, ⟨false, 2, 20, "X", "f2"⟩] []).events.countP isInj = 1) ∧
    (mainRun okEnv (fun _ => none) [⟨0, 0, 4, 'D', "X"⟩] ["m"]
      [⟨false, 1, 10, "X", "f1"⟩, ⟨false, 2, 20, "X", "f2"⟩] []).events.countP isInj = 2 := by
  refine ⟨by decide, by decide, ?_⟩
  simp [mainRun, mainBody, positional_pass, leftoverGo, injectStep, inject_data,
    get_ident_data, symmap_scan, check_user_data, path_ident, after_last_slash,
    initIdent, isInj]

/-- Claim C9, amended: provided the registered override idents are pairwise
distinct and contain no `/` (so the ident derived from the passed string is
the override ident itself), the final pass calls `inject_data` exactly once
for each override still unconsumed after the positional pass, in insertion
order, passing the override's own ident string in place of a dump path, and
the run's exit flag is the positional-pass flag bitwise-OR'ed with 1 exactly
when one of those leftover injection calls failed. (When duplicate idents
are registered, a leftover call can consume later overrides, which are then
skipped — see the counterexample.) -/
theorem c9_leftover_calls (env : IOEnv) (fs : String → Option (List Nat))
    (symmap : List SymLine) (args : List String) (options : List ProgOption)
    (core : List Nat)
    (hdist : options.Pairwise (fun a b => a.ident ≠ b.ident))
    (hslash : ∀ o ∈ options, path_ident o.ident = o.ident) :
    ∃ E : List Event,
      (mainBody env fs symmap args options core).events =
        (positional_pass env fs symmap args options core).events ++ E ∧
      E.filterMap injName =
        ((positional_pass env fs symmap args options core).options.filter
          (fun o => o.processed = false)).map (fun o => o.ident) ∧
      (∀ o ∈ (positional_pass env fs symmap args options core).options,
        path_ident o.ident = o.ident) ∧
      (mainBody env fs symmap args options core).err =
        ((positional_pass env fs symmap args options core).err |||
          if E.any isFailEv then 1 else 0) := by
  have hids := positional_pass_idents env fs symmap args options core
  have hdist1 := pairwise_idents_of_map_eq _ _ hids.symm hdist
  have hslash1 := slash_of_map_eq _ _ hids.symm hslash
  obtain ⟨E, h1, h2, h3⟩ := leftoverGo_char env fs symmap
    (positional_pass env fs symmap args options core).options.length 0
    (positional_pass env fs symmap args options core) hdist1 hslash1 (by omega)
  refine ⟨E, h1, ?_, hslash1, h3⟩
  rw [h2, List.drop_zero]

/-- Witness for C9 (amended): one override for `X` (distinct, slash-free),
no matching positional dump file; the final pass makes exactly the one
leftover call for `X` and the exit flag is the OR of the pass flags. -/
theorem c9_leftover_calls_witness :
    ∃ E : List Event,
      (mainBody okEnv (fun s => if s = "fX" then some [1, 2] else none)
        [⟨0, 0, 2, 'D', "X"⟩] ["m"] [⟨false, 2, 0, "X", "fX"⟩] []).events =
        (positional_pass okEnv (fun s => if s = "fX" then some [1, 2] else none)
          [⟨0, 0, 2, 'D', "X"⟩] ["m"] [⟨false, 2, 0, "X", "fX"⟩] []).events ++ E ∧
      E.filterMap injName =
        ((positional_pass okEnv (fun s => if s = "fX" then some [1, 2] else none)
          [⟨0, 0, 2, 'D', "X"⟩] ["m"] [⟨false, 2, 0, "X", "fX"⟩] []).options.filter
            (fun o => o.processed = false)).map (fun o => o.ident) ∧
      (∀ o ∈ (positional_pass okEnv (fun s => if s = "fX" then some [1, 2] else none)
          [⟨0, 0, 2, 'D', "X"⟩] ["m"] [⟨false, 2, 0, "X", "fX"⟩] []).options,
        path_ident o.ident = o.ident) ∧
      (mainBody okEnv (fun s => if s = "fX" then some [1, 2] else none)
        [⟨0, 0, 2, 'D', "X"⟩] ["m"] [⟨false, 2, 0, "X", "fX"⟩] []).err =
        ((positional_pass okEnv (fun s => if s = "fX" then some [1, 2] else none)
          [⟨0, 0, 2, 'D', "X"⟩] ["m"] [⟨false, 2, 0, "X", "fX"⟩] []).err |||
          if E.any isFailEv then 1 else 0) :=
  c9_leftover_calls okEnv (fun s => if s = "fX" then some [1, 2] else none)
    [⟨0, 0, 2, 'D', "X"⟩] ["m"] [⟨false, 2, 0, "X", "fX"⟩] []
    (List.pairwise_singleton _ _) (by decide)
